import Mathlib

/-!
Shallow embedding of the TSP metaheuristics in `src/ls/tsp_ls.py` and
`src/ls/tsp_lsplus.py`, together with theorems settling the frozen claims.

Conventions of the embedding:
* the complete directed graph produced by `random_euclidean_graph` is modelled
  by its node count `n` (nodes `0, …, n-1`, as networkx enumerates them in
  insertion order) and a total cost function `c : Nat → Nat → ℚ`;
* Python floats are modelled by rationals; the improvement threshold `0.001`
  becomes `1/1000`;
* Python list indexing `xs[i]` becomes `List.getD xs i 0` (the algorithms only
  index in bounds), slicing `xs[a:b]` becomes `(xs.drop a).take (b - a)`, and
  `xs[:k]`/`xs[k:]` become `take`/`drop`, which clamp exactly as Python slices
  do;
* calls to the global random generator are modelled by oracle inputs: the
  caller of the embedded function supplies the values the generator produced.
-/

attribute [local semireducible] Rat.add Rat.sub Rat.mul Rat.inv

/-- `__edgelist` of `tsp_ls.py`: consecutive pairs plus the wrap-around edge.
(Python raises on the empty list; the model returns `[]` there, a case no
algorithm reaches.) -/
def edgelist (nodes : List Nat) : List (Nat × Nat) :=
  match nodes with
  | [] => []
  | x :: _ => nodes.zip (nodes.drop 1) ++ [(nodes.getLastD 0, x)]

/-- `__evaluate_solution` of `tsp_ls.py`: sum of the edge costs of the tour,
with the graph's cost table modelled by the total function `c`. -/
def evaluate_solution (c : Nat → Nat → ℚ) (solution : List Nat) : ℚ :=
  ((edgelist solution).map fun e => c e.1 e.2).sum

/-- The simultaneous position swap used by `__improve_by_node_swaps`,
`tabu_search`, `simulated_annealing` and the GA mutation: the element at `i`
receives the old value at `j` and vice versa (both values are read from the
original list, as in the Python tuple assignment). -/
def swapPos (solution : List Nat) (i j : Nat) : List Nat :=
  (solution.set j (solution.getD i 0)).set i (solution.getD j 0)

/-- The relocation move of `__improve_by_node_relocations`: remove the element
at position `i`, then insert it at position `j` of the shortened list. -/
def relocate (solution : List Nat) (i j : Nat) : List Nat :=
  let working := solution.take i ++ solution.drop (i + 1)
  working.take j ++ [solution.getD i 0] ++ working.drop j

/-- The 2-opt move of `__improve_by_2_opt`:
`solution[:i] + solution[i:j][::-1] + solution[j:]`. -/
def twoOpt (solution : List Nat) (i j : Nat) : List Nat :=
  solution.take i ++ ((solution.drop i).take (j - i)).reverse ++ solution.drop j

/-- `itertools.combinations(range(lo, n), 2)`: pairs `(i, j)` with
`lo ≤ i < j < n`, in lexicographic enumeration order. -/
def combPairs (lo n : Nat) : List (Nat × Nat) :=
  (List.range' lo (n - lo)).flatMap fun i =>
    ((List.range' lo (n - lo)).filter fun j => i < j).map fun j => (i, j)

/-- `itertools.permutations(range(lo, n), 2)`: ordered pairs `(i, j)` with
`lo ≤ i, j < n` and `i ≠ j`, in lexicographic enumeration order. -/
def permPairs (lo n : Nat) : List (Nat × Nat) :=
  (List.range' lo (n - lo)).flatMap fun i =>
    ((List.range' lo (n - lo)).filter fun j => j ≠ i).map fun j => (i, j)

/-- State threaded through the best-improvement scan of the neighborhood
operators in `tsp_ls.py`: best solution so far, its cost, improvement flag. -/
structure ImproveState where
  best : List Nat
  cost : ℚ
  improved : Bool
  deriving Repr, DecidableEq

/-- One candidate inspection of `__improve_by_node_relocations`: evaluate the
relocated tour and keep it when it beats the incumbent by more than `0.001`. -/
def relocStep (c : Nat → Nat → ℚ) (solution : List Nat) (st : ImproveState)
    (p : Nat × Nat) : ImproveState :=
  let working := relocate solution p.1 p.2
  let workingCost := evaluate_solution c working
  if workingCost + 1/1000 < st.cost then ⟨working, workingCost, true⟩ else st

/-- `__improve_by_node_relocations` of `tsp_ls.py` (its length assertion is
modelled separately, see `improveChecked`): scan all ordered pairs of distinct
positions in `range(1, len(solution))`, best-improvement selection. -/
def improve_by_node_relocations (c : Nat → Nat → ℚ) (solution : List Nat) :
    ImproveState :=
  (permPairs 1 solution.length).foldl (relocStep c solution)
    ⟨solution, evaluate_solution c solution, false⟩

/-- The `while True` loop of `local_search` in `tsp_ls.py`, with the shuffled
initial tour supplied as `solution` (the outcome of `random.shuffle`) and an
explicit fuel bound; returns the list `solutions` of recorded tours, or `none`
when the fuel runs out before the loop exits. -/
def lsRun (c : Nat → Nat → ℚ) : Nat → List Nat → Option (List (List Nat))
  | 0, _ => none
  | fuel + 1, solution =>
    let r := improve_by_node_relocations c solution
    if r.improved then (lsRun c fuel r.best).map (solution :: ·)
    else some [solution]

/-- Runtime failures of the Python reference, distinguished by their origin:
`shapeMismatch` is the `assert len(graph) == len(solution)` of the improvement
operators; `keyError` is a `graph.edges[(u, v)]` lookup of an edge that is not
in the complete loopless digraph. -/
inductive Err where
  | shapeMismatch
  | keyError
  deriving Repr, DecidableEq

instance {ε α : Type} [DecidableEq ε] [DecidableEq α] :
    DecidableEq (Except ε α) := fun a b =>
  match a, b with
  | .error e, .error f =>
    if h : e = f then .isTrue (by rw [h]) else .isFalse (by simp [h])
  | .ok x, .ok y =>
    if h : x = y then .isTrue (by rw [h]) else .isFalse (by simp [h])
  | .error _, .ok _ => .isFalse (by simp)
  | .ok _, .error _ => .isFalse (by simp)

/-- `graph.edges[(u, v)]['cost']` on the complete digraph over `n` nodes:
defined for distinct in-range nodes, otherwise a `KeyError`. -/
def lookupCost (n : Nat) (c : Nat → Nat → ℚ) (u v : Nat) : Except Err ℚ :=
  if u < n ∧ v < n ∧ u ≠ v then .ok (c u v) else .error .keyError

/-- `__evaluate_solution` with the graph lookups made explicit: sums the edge
costs, aborting with `KeyError` at the first edge absent from the graph. -/
def evaluateChecked (n : Nat) (c : Nat → Nat → ℚ) (solution : List Nat) :
    Except Err ℚ :=
  (edgelist solution).foldlM (fun acc e => do
    let w ← lookupCost n c e.1 e.2
    pure (acc + w)) (0 : ℚ)

/-- The candidate scan of `__improve_by_node_relocations` with checked
evaluation: aborts with the error of the first failing lookup. -/
def improveFoldChecked (n : Nat) (c : Nat → Nat → ℚ) (solution : List Nat) :
    List (Nat × Nat) → ImproveState → Except Err ImproveState
  | [], st => .ok st
  | p :: rest, st => do
    let workingCost ← evaluateChecked n c (relocate solution p.1 p.2)
    let st' : ImproveState :=
      if workingCost + 1/1000 < st.cost then
        ⟨relocate solution p.1 p.2, workingCost, true⟩
      else st
    improveFoldChecked n c solution rest st'

/-- `__improve_by_node_relocations` with its `assert` and the graph lookups
made explicit: a solution of the wrong length fails the assertion with
`shapeMismatch` before anything is evaluated; otherwise evaluation proceeds
and may fail with `keyError`. -/
def improveChecked (n : Nat) (c : Nat → Nat → ℚ) (solution : List Nat) :
    Except Err ImproveState :=
  if solution.length = n then do
    let initCost ← evaluateChecked n c solution
    improveFoldChecked n c solution (permPairs 1 solution.length)
      ⟨solution, initCost, false⟩
  else .error .shapeMismatch

/-- State of `tabu_search` in `tsp_lsplus.py`: current tour, global best tour
and cost, tabu list, and the recorded `costs` trace. -/
structure TabuState where
  curr : List Nat
  bestGlobal : List Nat
  bestGlobalCost : ℚ
  tabu : List (Nat × Nat)
  costs : List ℚ
  deriving Repr, DecidableEq

/-- Initial state of `tabu_search`: `curr_solution = list(graph.nodes)`
(insertion order `0, …, n-1`, no shuffle), best = its copy, empty tabu list,
trace seeded with the initial cost. -/
def tabuInit (n : Nat) (c : Nat → Nat → ℚ) : TabuState :=
  let sol := List.range n
  ⟨sol, sol, evaluate_solution c sol, [], [evaluate_solution c sol]⟩

/-- One candidate inspection of the inner loop of `tabu_search`: tabu moves
are skipped unconditionally; otherwise the swapped neighbor replaces the
incumbent when it beats it by more than `0.001` (`none` plays the role of the
initial `float('inf')` incumbent). -/
def tabuConsider (c : Nat → Nat → ℚ) (curr : List Nat)
    (tabu : List (Nat × Nat)) (best : Option (List Nat × ℚ × (Nat × Nat)))
    (p : Nat × Nat) : Option (List Nat × ℚ × (Nat × Nat)) :=
  if p ∈ tabu then best
  else
    let neighbor := swapPos curr p.1 p.2
    let ncost := evaluate_solution c neighbor
    match best with
    | none => some (neighbor, ncost, p)
    | some (_, bcost, _) =>
      if ncost + 1/1000 < bcost then some (neighbor, ncost, p) else best

/-- The inner loop of `tabu_search`: scan
`itertools.combinations(range(len(curr_solution)), 2)` for the best non-tabu
swap neighbor. -/
def findBestNeighbor (c : Nat → Nat → ℚ) (curr : List Nat)
    (tabu : List (Nat × Nat)) : Option (List Nat × ℚ × (Nat × Nat)) :=
  (combPairs 0 curr.length).foldl (tabuConsider c curr tabu) none

/-- One iteration of `tabu_search`: `none` models the `break` taken when no
non-tabu move exists; otherwise record the cost, push the move onto the tabu
list (FIFO eviction beyond `tabuLength`), update the global best when beaten
by more than `0.001`, and move to the neighbor. -/
def tabuStep (c : Nat → Nat → ℚ) (tabuLength : Nat) (st : TabuState) :
    Option TabuState :=
  match findBestNeighbor c st.curr st.tabu with
  | none => none
  | some (neighbor, ncost, mv) =>
    let tabu1 := st.tabu ++ [mv]
    let tabu2 := if tabuLength < tabu1.length then tabu1.drop 1 else tabu1
    some ⟨neighbor,
      if ncost + 1/1000 < st.bestGlobalCost then neighbor else st.bestGlobal,
      if ncost + 1/1000 < st.bestGlobalCost then ncost else st.bestGlobalCost,
      tabu2, st.costs ++ [ncost]⟩

/-- The `for iterations in range(max_iterations)` loop of `tabu_search`,
stopping at the state in which no valid move exists. -/
def tabuLoop (c : Nat → Nat → ℚ) (tabuLength : Nat) :
    Nat → TabuState → TabuState
  | 0, st => st
  | fuel + 1, st =>
    match tabuStep c tabuLength st with
    | none => st
    | some st' => tabuLoop c tabuLength fuel st'

/-- `tabu_search` of `tsp_lsplus.py` with a natural iteration budget. -/
def tabu_search (n : Nat) (c : Nat → Nat → ℚ) (maxIterations tabuLength : Nat) :
    TabuState :=
  tabuLoop c tabuLength maxIterations (tabuInit n c)

/-- `tabu_search` with the Python `int` budget: `range(m)` is empty for
non-positive `m`, i.e. the loop runs `m.toNat` times. -/
def tabu_searchInt (n : Nat) (c : Nat → Nat → ℚ) (maxIterations : Int)
    (tabuLength : Nat) : TabuState :=
  tabu_search n c maxIterations.toNat tabuLength

/-- The moves an iteration of `tabu_search` actually examines (does not skip):
the enumerated combinations minus the tabu list. -/
def tabuMoves (n : Nat) (tabu : List (Nat × Nat)) : List (Nat × Nat) :=
  (combPairs 0 n).filter fun p => p ∉ tabu

/-- State of `simulated_annealing` in `tsp_lsplus.py`. -/
structure SAState where
  curr : List Nat
  currCost : ℚ
  best : List Nat
  bestCost : ℚ
  temp : ℚ
  costs : List ℚ
  deriving Repr, DecidableEq

/-- The random values one `simulated_annealing` step consumes: the two swap
positions from `random.sample(range(len(curr_solution)), 2)`, and the outcome
of the Metropolis test `random.random() < np.exp(-delta_cost / temperature)`,
abstracted to the Boolean it evaluates to (the real-valued exponential itself
is not representable in this rational model; every theorem below quantifies
over all outcomes, which covers every realizable draw). -/
structure SARand where
  i : Nat
  j : Nat
  metro : Bool
  deriving Repr, DecidableEq

/-- Initial state of `simulated_annealing`: the unshuffled
`list(graph.nodes)`, its cost, and the trace seeded with that cost. -/
def saInit (n : Nat) (c : Nat → Nat → ℚ) (temperature : ℚ) : SAState :=
  let sol := List.range n
  let cost := evaluate_solution c sol
  ⟨sol, cost, sol, cost, temperature, [cost]⟩

/-- One step of the `while temperature > 0.1` loop of `simulated_annealing`:
swap two positions, accept when strictly improving by more than `0.001` or
when the Metropolis draw succeeds, update the best on improvement by more
than `0.001`, then cool the temperature. -/
def saStep (c : Nat → Nat → ℚ) (coolingRate : ℚ) (r : SARand) (st : SAState) :
    SAState :=
  let newSol := swapPos st.curr r.i r.j
  let newCost := evaluate_solution c newSol
  let deltaCost := newCost - st.currCost
  let st' :=
    if deltaCost < -(1/1000) ∨ r.metro then
      let (b, bc) :=
        if newCost + 1/1000 < st.bestCost then (newSol, newCost)
        else (st.best, st.bestCost)
      { st with curr := newSol, currCost := newCost, best := b, bestCost := bc,
                costs := st.costs ++ [newCost] }
    else st
  { st' with temp := st'.temp * coolingRate }

/-- The `while temperature > 0.1` loop, with fuel: `none` when the fuel is
exhausted while the loop guard still holds. -/
def saLoop (c : Nat → Nat → ℚ) (coolingRate : ℚ) :
    Nat → List SARand → SAState → Option SAState
  | 0, _, st => if st.temp ≤ 1/10 then some st else none
  | fuel + 1, rands, st =>
    if st.temp ≤ 1/10 then some st
    else saLoop c coolingRate fuel rands.tail
      (saStep c coolingRate (rands.headD ⟨0, 1, false⟩) st)

/-- `simulated_annealing` of `tsp_lsplus.py` (fuel-bounded). -/
def simulated_annealing (n : Nat) (c : Nat → Nat → ℚ) (temperature : ℚ)
    (coolingRate : ℚ) (rands : List SARand) (fuel : Nat) : Option SAState :=
  saLoop c coolingRate fuel rands (saInit n c temperature)

/-- The random values one mating of `genetic_algorithm` consumes: the two
positions drawn by `random.sample(population[:population_size//2], 2)`
(distinct positions into the top half), the crossover point from
`random.randint(0, len(parent1)-1)`, the outcome of
`random.random() < mutation_rate`, and the two mutation positions. -/
structure Mating where
  p1 : Nat
  p2 : Nat
  cross : Nat
  mutate : Bool
  mi : Nat
  mj : Nat
  deriving Repr, DecidableEq

/-- The order crossover of `genetic_algorithm`: the prefix of `parent1` up to
`k`, followed by the genes of `parent2` not in that prefix, in order. -/
def crossover (parent1 parent2 : List Nat) (k : Nat) : List Nat :=
  parent1.take k ++ parent2.filter fun gene => gene ∉ parent1.take k

/-- One iteration of the reproduction loop of `genetic_algorithm`: select the
parents from the top half, produce the offspring by crossover and optional
swap mutation, and append parent 1, parent 2 and the offspring to the next
generation unless already present by value. -/
def matingStep (c : Nat → Nat → ℚ) (topHalf : List (List Nat))
    (np : List (List Nat)) (m : Mating) : List (List Nat) :=
  let parent1 := topHalf.getD m.p1 []
  let parent2 := topHalf.getD m.p2 []
  let off0 := crossover parent1 parent2 m.cross
  let offspring := if m.mutate then swapPos off0 m.mi m.mj else off0
  let np1 := if parent1 ∈ np then np else np ++ [parent1]
  let np2 := if parent2 ∈ np1 then np1 else np1 ++ [parent2]
  if offspring ∈ np2 then np2 else np2 ++ [offspring]

/-- `list.sort(key=...)` by tour cost: Python's sort is stable, and the output
of a stable sort is uniquely determined by the comparator, so it is modelled
by Mathlib's stable insertion sort. -/
def sortByCost (c : Nat → Nat → ℚ) (l : List (List Nat)) : List (List Nat) :=
  l.insertionSort fun a b => evaluate_solution c a ≤ evaluate_solution c b

/-- One generation of `genetic_algorithm`: elitism
(`population[:population_size//10]`), the reproduction loop over the supplied
mating draws, then sort by cost and truncate to `population_size`. -/
def gaStep (c : Nat → Nat → ℚ) (populationSize : Nat) (pop : List (List Nat))
    (ms : List Mating) : List (List Nat) :=
  let elite := pop.take (populationSize / 10)
  let topHalf := pop.take (populationSize / 2)
  let newPop := ms.foldl (matingStep c topHalf) elite
  (sortByCost c newPop).take populationSize

/-- The `for generation in range(generations)` loop of `genetic_algorithm`,
recording the best cost of each generation (`population[0]`). -/
def gaLoop (c : Nat → Nat → ℚ) (populationSize : Nat) :
    Nat → List (List Mating) → List (List Nat) → List ℚ →
    List (List Nat) × List ℚ
  | 0, _, pop, bestCosts => (pop, bestCosts)
  | g + 1, oracle, pop, bestCosts =>
    let pop' := gaStep c populationSize pop (oracle.headD [])
    gaLoop c populationSize g oracle.tail pop'
      (bestCosts ++ [evaluate_solution c (pop'.getD 0 [])])

/-- `genetic_algorithm` of `tsp_lsplus.py`: the initial population (the
outcome of the `population_size` random shuffles) is supplied as `pop0`,
sorted by cost, then evolved for `generations` generations. -/
def genetic_algorithm (c : Nat → Nat → ℚ) (populationSize generations : Nat)
    (pop0 : List (List Nat)) (oracle : List (List Mating)) :
    List (List Nat) × List ℚ :=
  gaLoop c populationSize generations oracle (sortByCost c pop0) []

/-- Validity of one mating draw against the population it is drawn from:
`random.sample(population[:population_size//2], 2)` only produces positions
inside the top half, and `random.sample(range(len(solution)), 2)` only
produces mutation positions below the tour length `n`. -/
def matingOk (n populationSize : Nat) (pop : List (List Nat)) (m : Mating) :
    Bool :=
  decide (m.p1 < (pop.take (populationSize / 2)).length) &&
  decide (m.p2 < (pop.take (populationSize / 2)).length) &&
  decide (m.mi < n) && decide (m.mj < n)

/-- Validity of a whole oracle for a `gaLoop` run: each generation's mating
draws are valid for that generation's population. -/
def gaOracleOk (n : Nat) (c : Nat → Nat → ℚ) (populationSize : Nat) :
    Nat → List (List Mating) → List (List Nat) → Bool
  | 0, _, _ => true
  | g + 1, oracle, pop =>
    (oracle.headD []).all (matingOk n populationSize pop) &&
    gaOracleOk n c populationSize g oracle.tail
      (gaStep c populationSize pop (oracle.headD []))

/-- Concrete asymmetric cost table on 3 nodes: the cycle `0 → 1 → 2 → 0`
costs 1 per edge, every other edge costs 10, so the tour `[0, 1, 2]` costs 3
and the tour `[0, 2, 1]` costs 30. -/
def cex3 : Nat → Nat → ℚ := fun u v =>
  if (u, v) = (0, 1) ∨ (u, v) = (1, 2) ∨ (u, v) = (2, 0) then 1 else 10

/-- A concrete initial GA population of six shuffles of the 3-node set:
one cheap tour and five copies of the expensive one. -/
def pop6 : List (List Nat) :=
  [[0, 1, 2], [0, 2, 1], [0, 2, 1], [0, 2, 1], [0, 2, 1], [0, 2, 1]]

/-- Concrete mating draws for one generation with `population_size = 6`:
each of the three matings picks parents at positions 1 and 2 of the top half
(both the expensive tour), crossover point 0, no mutation. -/
def ms3 : List Mating :=
  [⟨1, 2, 0, false, 0, 0⟩, ⟨1, 2, 0, false, 0, 0⟩, ⟨1, 2, 0, false, 0, 0⟩]

/-- `genetic_algorithm` with the Python `int` generation count:
`range(g)` is empty for non-positive `g`. -/
def genetic_algorithmInt (c : Nat → Nat → ℚ) (populationSize : Nat)
    (generations : Int) (pop0 : List (List Nat)) (oracle : List (List Mating)) :
    List (List Nat) × List ℚ :=
  genetic_algorithm c populationSize generations.toNat pop0 oracle

/-- The all-ones cost table, used as the concrete instance of several
witnesses: every tour over `n` nodes costs `n`. -/
def cOne : Nat → Nat → ℚ := fun _ _ => 1

/-- Termination measure of the local-search loop: the initial cost shrinks by
more than `0.001` with every accepted improvement, so a thousandfold floor of
the cost strictly decreases. -/
def lsMeasure (c : Nat → Nat → ℚ) (sol : List Nat) : Nat :=
  (⌊evaluate_solution c sol * 1000⌋).toNat

example : edgelist [0, 1, 2] = [(0, 1), (1, 2), (2, 0)] := by decide
example : relocate [0, 1, 2, 3] 1 2 = [0, 2, 1, 3] := by decide
example : swapPos [5, 6, 7] 0 2 = [7, 6, 5] := by decide
example : twoOpt [0, 1, 2, 3] 1 3 = [0, 2, 1, 3] := by decide
example : combPairs 0 3 = [(0, 1), (0, 2), (1, 2)] := by decide
example : permPairs 1 4 = [(1, 2), (1, 3), (2, 1), (2, 3), (3, 1), (3, 2)] := by
  decide

/-! ### Helper lemmas -/

theorem mem_combPairs {lo n : Nat} {p : Nat × Nat} :
    p ∈ combPairs lo n ↔ lo ≤ p.1 ∧ p.1 < p.2 ∧ p.2 < n := by
  obtain ⟨i, j⟩ := p
  simp only [combPairs, List.mem_flatMap, List.mem_map, List.mem_filter,
    List.mem_range'_1, Prod.mk.injEq, decide_eq_true_eq]
  constructor
  · rintro ⟨a, ⟨ha1, ha2⟩, b, ⟨⟨hb1, hb2⟩, hab⟩, rfl, rfl⟩
    omega
  · rintro ⟨h1, h2, h3⟩
    exact ⟨i, ⟨h1, by omega⟩, j, ⟨⟨by omega, by omega⟩, h2⟩, rfl, rfl⟩

theorem tabuConsider_skip (c : Nat → Nat → ℚ) (curr : List Nat)
    (tabu : List (Nat × Nat)) (best : Option (List Nat × ℚ × (Nat × Nat)))
    (p : Nat × Nat) (h : p ∈ tabu) : tabuConsider c curr tabu best p = best := by
  simp [tabuConsider, h]

theorem foldl_tabuConsider_filter (c : Nat → Nat → ℚ) (curr : List Nat)
    (tabu : List (Nat × Nat)) :
    ∀ (l : List (Nat × Nat)) (acc : Option (List Nat × ℚ × (Nat × Nat))),
      l.foldl (tabuConsider c curr tabu) acc =
        (l.filter fun p => p ∉ tabu).foldl (tabuConsider c curr tabu) acc := by
  intro l
  induction l with
  | nil => intro acc; rfl
  | cons p l ih =>
    intro acc
    by_cases hp : p ∈ tabu
    · simp only [List.foldl_cons, List.filter_cons,
        tabuConsider_skip c curr tabu acc p hp]
      rw [if_neg (by simpa using hp)]
      exact ih acc
    · simp only [List.foldl_cons, List.filter_cons]
      rw [if_pos (by simpa using hp)]
      simp only [List.foldl_cons]
      exact ih _

/-! ### C2 -/

/-- C2, counterexample: with 2 nodes and an empty tabu list, `tabu_search`
enumerates the swap `(0, 1)` — position 0 is an endpoint — while the claimed
candidate set (pairs with `i, j ≥ 1`, minus the tabu list) is empty. -/
theorem C2_counterexample :
    tabuMoves 2 [] = [(0, 1)] ∧
    (combPairs 1 2).filter (fun p => p ∉ ([] : List (Nat × Nat))) = [] := by
  decide

/-- C2, amended: the candidate moves of a Tabu Search iteration are exactly
the swap pairs `(i, j)` with `0 ≤ i < j < n` — position 0 included — minus
every move in the tabu list; the selection scan is the fold over exactly this
candidate list (a tabu move is skipped unconditionally, so there is no
aspiration override). -/
theorem C2_amended :
    (∀ (n : Nat) (tabu : List (Nat × Nat)) (p : Nat × Nat),
        p ∈ tabuMoves n tabu ↔ p.1 < p.2 ∧ p.2 < n ∧ p ∉ tabu) ∧
    (∀ (c : Nat → Nat → ℚ) (curr : List Nat) (tabu : List (Nat × Nat)),
        findBestNeighbor c curr tabu =
          (tabuMoves curr.length tabu).foldl (tabuConsider c curr tabu) none) := by
  constructor
  · intro n tabu p
    simp only [tabuMoves, List.mem_filter, mem_combPairs, decide_eq_true_eq]
    constructor
    · rintro ⟨⟨-, h2, h3⟩, h4⟩; exact ⟨h2, h3, h4⟩
    · rintro ⟨h2, h3, h4⟩; exact ⟨⟨Nat.zero_le _, h2, h3⟩, h4⟩
  · intro c curr tabu
    exact foldl_tabuConsider_filter c curr tabu (combPairs 0 curr.length) none

/-! ### C3 -/

/-- C3, counterexample: `tabu_search` called with the non-positive iteration
budget `0` does not fail with any error — it performs zero iterations and
returns normally with the initial tour `[0, 1]` and the one-element cost
trace, contradicting the claimed fail-fast `InvalidParameter` behavior.
(None of the controllers contains any parameter validation.) -/
theorem C3_counterexample :
    tabu_searchInt 2 cOne 0 5 = tabuInit 2 cOne ∧
    (tabuInit 2 cOne).bestGlobal = [0, 1] ∧
    (tabuInit 2 cOne).costs = [2] := by
  decide

/-- C3, amended: no controller validates its parameters; an out-of-range
parameter silently yields a degenerate run instead of an error: a
non-positive `max_iterations` makes `tabu_search` return its initial state
unchanged, a temperature at or below the `0.1` floor makes
`simulated_annealing` return its initial state, and a non-positive
`generations` makes `genetic_algorithm` return the sorted initial population
with an empty cost trace. -/
theorem C3_amended :
    (∀ (n : Nat) (c : Nat → Nat → ℚ) (tl : Nat) (m : Int), m ≤ 0 →
        tabu_searchInt n c m tl = tabuInit n c) ∧
    (∀ (n : Nat) (c : Nat → Nat → ℚ) (temp cool : ℚ) (rands : List SARand)
        (fuel : Nat), temp ≤ 1/10 →
        simulated_annealing n c temp cool rands fuel = some (saInit n c temp)) ∧
    (∀ (c : Nat → Nat → ℚ) (ps : Nat) (g : Int) (pop0 : List (List Nat))
        (oracle : List (List Mating)), g ≤ 0 →
        genetic_algorithmInt c ps g pop0 oracle = (sortByCost c pop0, [])) := by
  refine ⟨?_, ?_, ?_⟩
  · intro n c tl m hm
    unfold tabu_searchInt tabu_search
    rw [Int.toNat_of_nonpos hm]
    rfl
  · intro n c temp cool rands fuel htemp
    have h10 : temp ≤ (10 : ℚ)⁻¹ := by rw [← one_div]; exact htemp
    cases fuel <;> simp [simulated_annealing, saLoop, saInit]
    · exact h10
    · intro hcontra
      exact absurd h10 (not_le.2 hcontra)
  · intro c ps g pop0 oracle hg
    unfold genetic_algorithmInt genetic_algorithm
    rw [Int.toNat_of_nonpos hg]
    rfl

/-- Witness for C3's amended theorem at concrete inputs. -/
theorem C3_amended_witness :
    tabu_searchInt 2 cOne (-3) 5 = tabuInit 2 cOne ∧
    simulated_annealing 2 cOne (1/20) (1/2) [] 3 = some (saInit 2 cOne (1/20)) ∧
    genetic_algorithmInt cOne 4 (-1) [[0, 1]] [] =
      (sortByCost cOne [[0, 1]], []) :=
  ⟨C3_amended.1 2 cOne 5 (-3) (by norm_num),
   C3_amended.2.1 2 cOne (1/20) (1/2) [] 3 (by norm_num),
   C3_amended.2.2 cOne 4 (-1) [[0, 1]] [] (by norm_num)⟩

/-! ### C4 -/

/-- C4, counterexample: `__evaluate_solution` performs no shape check at all —
on the 3-node graph the too-short sequence `[0, 1]` evaluates successfully to
`2` — and the assertion in the improvement operator checks only the length:
the sequence `[0, 1, 1]` of matching length 3 but wrong element set passes
the assertion and fails later, during evaluation, with a key lookup error,
not with the claimed ShapeMismatch. -/
theorem C4_counterexample :
    evaluateChecked 3 cOne [0, 1] = .ok 2 ∧
    improveChecked 3 cOne [0, 1, 1] = .error .keyError := by
  decide

/-- C4, amended: only a length mismatch triggers the assertion: a sequence
whose length differs from the node-set size fails the improvement operator
with ShapeMismatch before any evaluation; a sequence of matching length but
wrong element set instead passes the assertion (and bare cost evaluation
performs no check whatsoever). -/
theorem C4_amended : ∀ (n : Nat) (c : Nat → Nat → ℚ) (sol : List Nat),
    sol.length ≠ n → improveChecked n c sol = .error .shapeMismatch := by
  intro n c sol h
  simp [improveChecked, h]

/-- Witness for C4's amended theorem at a concrete input. -/
theorem C4_amended_witness :
    improveChecked 3 cOne [0, 1] = .error .shapeMismatch :=
  C4_amended 3 cOne [0, 1] (by norm_num)

/-! ### C5 -/

/-- C5, counterexample: `[1, 0, 2]` is a permutation of the node set, hence a
reachable outcome of the full `random.shuffle` in `local_search`; the run
records it into the trace as the initial tour, and its position 0 holds
node 1, not node 0 — so the initial tour is not created with node 0 fixed at
position 0. -/
theorem C5_counterexample :
    ([1, 0, 2] : List Nat).Perm (List.range 3) ∧
    lsRun cOne 1 [1, 0, 2] = some [[1, 0, 2]] ∧
    ([1, 0, 2] : List Nat).getD 0 0 ≠ 0 := by
  decide

/-- C5, amended: the initial tour is created exactly once per run — in
`local_search` it is the outcome of a full random shuffle with no position
pinned, in `tabu_search` and `simulated_annealing` it is the unshuffled node
order `0, …, n-1` — it is recorded into the trace unchanged, and every later
trace entry is the wholesale replacement produced by an accepted improving
move of its predecessor. -/
theorem C5_amended :
    (∀ (c : Nat → Nat → ℚ) (fuel : Nat) (sol : List Nat)
        (trace : List (List Nat)), lsRun c fuel sol = some trace →
        trace.head? = some sol ∧
        trace.Chain' (fun a b => b = (improve_by_node_relocations c a).best ∧
          (improve_by_node_relocations c a).improved = true)) ∧
    (∀ (n : Nat) (c : Nat → Nat → ℚ), (tabuInit n c).curr = List.range n) ∧
    (∀ (n : Nat) (c : Nat → Nat → ℚ) (t : ℚ),
        (saInit n c t).curr = List.range n) := by
  refine ⟨?_, fun n c => rfl, fun n c t => rfl⟩
  intro c fuel
  induction fuel with
  | zero => intro sol tr h; simp [lsRun] at h
  | succ f ih =>
    intro sol tr h
    simp only [lsRun] at h
    by_cases himp : (improve_by_node_relocations c sol).improved
    · rw [if_pos himp] at h
      rw [Option.map_eq_some'] at h
      obtain ⟨tr', hrun, rfl⟩ := h
      obtain ⟨hhead, hchain⟩ := ih _ tr' hrun
      refine ⟨rfl, List.chain'_cons'.2 ⟨?_, hchain⟩⟩
      intro y hy
      rw [hhead] at hy
      cases hy
      exact ⟨rfl, himp⟩
    · rw [if_neg himp] at h
      cases h
      exact ⟨rfl, List.chain'_singleton _⟩

/-- Witness for C5's amended theorem at a concrete run. -/
theorem C5_amended_witness :
    ([[0, 1]] : List (List Nat)).head? = some [0, 1] ∧
    ([[0, 1]] : List (List Nat)).Chain'
      (fun a b => b = (improve_by_node_relocations cOne a).best ∧
        (improve_by_node_relocations cOne a).improved = true) :=
  C5_amended.1 cOne 1 [0, 1] [[0, 1]] (by decide)

/-! ### C8 -/

theorem set_getD_self (l : List Nat) (k : Nat) (hk : k < l.length) :
    l.set k (l.getD k 0) = l := by
  apply List.ext_getElem
  · simp
  · intro m h1 h2
    rw [List.getElem_set]
    split
    · next heq => subst heq; exact (List.getD_eq_getElem l 0 hk).symm ▸ rfl
    · rfl

theorem swapPos_length (sol : List Nat) (i j : Nat) :
    (swapPos sol i j).length = sol.length := by
  simp [swapPos]

theorem getD_swapPos_fst (sol : List Nat) (i j : Nat) (hi : i < sol.length)
    (hj : j < sol.length) :
    (swapPos sol i j).getD i 0 = sol.getD j 0 := by
  have hi' : i < (swapPos sol i j).length := by rw [swapPos_length]; exact hi
  rw [List.getD_eq_getElem _ 0 hi']
  simp only [swapPos]
  rw [List.getElem_set, if_pos rfl]

theorem getD_swapPos_snd (sol : List Nat) (i j : Nat) (hne : i ≠ j)
    (hi : i < sol.length) (hj : j < sol.length) :
    (swapPos sol i j).getD j 0 = sol.getD i 0 := by
  have hj' : j < (swapPos sol i j).length := by rw [swapPos_length]; exact hj
  rw [List.getD_eq_getElem _ 0 hj']
  simp only [swapPos]
  rw [List.getElem_set, if_neg hne, List.getElem_set, if_pos rfl]

/-- C8: applying the position swap of `__improve_by_node_swaps` (the same
swap `tabu_search` and `simulated_annealing` use) twice at positions
`(i, j)` with `i < j` inside the tour returns the original tour, and applying
the 2-opt segment reversal `solution[:i] + solution[i:j][::-1] + solution[j:]`
of `__improve_by_2_opt` twice at the same positions returns the original
tour. -/
theorem C8_roundtrip (sol : List Nat) (i j : Nat) (hij : i < j)
    (hj : j < sol.length) :
    swapPos (swapPos sol i j) i j = sol ∧ twoOpt (twoOpt sol i j) i j = sol := by
  have hi : i < sol.length := lt_trans hij hj
  have hne : i ≠ j := Nat.ne_of_lt hij
  constructor
  · rw [show swapPos (swapPos sol i j) i j =
        ((swapPos sol i j).set j ((swapPos sol i j).getD i 0)).set i
          ((swapPos sol i j).getD j 0) from rfl]
    rw [getD_swapPos_fst sol i j hi hj, getD_swapPos_snd sol i j hne hi hj]
    show (((sol.set j (sol.getD i 0)).set i (sol.getD j 0)).set j
      (sol.getD j 0)).set i (sol.getD i 0) = sol
    rw [List.set_comm _ _ _ hne, List.set_set, List.set_set,
      set_getD_self sol j hj, set_getD_self sol i hi]
  · have hile : i ≤ sol.length := le_of_lt hi
    have hA : (sol.take i).length = i := by
      rw [List.length_take]; exact Nat.min_eq_left hile
    have hR : (((sol.drop i).take (j - i)).reverse).length = j - i := by
      rw [List.length_reverse, List.length_take, List.length_drop]
      exact Nat.min_eq_left (by omega)
    show (twoOpt sol i j).take i ++
        (((twoOpt sol i j).drop i).take (j - i)).reverse ++
        (twoOpt sol i j).drop j = sol
    have h1 : (twoOpt sol i j).take i = sol.take i := by
      rw [twoOpt, List.append_assoc, List.take_left' hA]
    have h2 : (twoOpt sol i j).drop i =
        ((sol.drop i).take (j - i)).reverse ++ sol.drop j := by
      rw [twoOpt, List.append_assoc, List.drop_left' hA]
    have h3 : (twoOpt sol i j).drop j = sol.drop j := by
      rw [twoOpt]
      apply List.drop_left'
      rw [List.length_append, hA, hR]
      omega
    rw [h1, h2, h3, List.take_left' hR, List.reverse_reverse]
    have h4 : sol.take i ++ (sol.drop i).take (j - i) = sol.take j := by
      have htk := (List.take_add sol i (j - i)).symm
      rw [show i + (j - i) = j from by omega] at htk
      exact htk
    rw [h4, List.take_append_drop]

/-- Witness for C8 at a concrete tour and position pair. -/
theorem C8_roundtrip_witness :
    swapPos (swapPos [0, 1, 2] 1 2) 1 2 = [0, 1, 2] ∧
    twoOpt (twoOpt [0, 1, 2] 1 2) 1 2 = [0, 1, 2] :=
  C8_roundtrip [0, 1, 2] 1 2 (by norm_num) (by norm_num)

/-! ### C7 -/

theorem saStep_inv (c : Nat → Nat → ℚ) (cool : ℚ) (r : SARand) (st : SAState)
    (h : st.bestCost = evaluate_solution c st.best) :
    (saStep c cool r st).bestCost =
      evaluate_solution c (saStep c cool r st).best ∧
    (saStep c cool r st).bestCost ≤ st.bestCost := by
  simp only [saStep]
  split_ifs with h1 h2
  · constructor
    · rfl
    · simp only []
      linarith
  · exact ⟨h, le_rfl⟩
  · exact ⟨h, le_rfl⟩

theorem saLoop_inv (c : Nat → Nat → ℚ) (cool : ℚ) :
    ∀ (fuel : Nat) (rands : List SARand) (st st' : SAState),
      saLoop c cool fuel rands st = some st' →
      st.bestCost = evaluate_solution c st.best →
      st'.bestCost = evaluate_solution c st'.best ∧
      st'.bestCost ≤ st.bestCost := by
  intro fuel
  induction fuel with
  | zero =>
    intro rands st st' h hinv
    simp only [saLoop] at h
    split_ifs at h
    cases h
    exact ⟨hinv, le_rfl⟩
  | succ f ih =>
    intro rands st st' h hinv
    simp only [saLoop] at h
    split_ifs at h with htemp
    · cases h
      exact ⟨hinv, le_rfl⟩
    · obtain ⟨h1, h2⟩ := saStep_inv c cool (rands.headD ⟨0, 1, false⟩) st hinv
      obtain ⟨h3, h4⟩ := ih rands.tail _ st' h h1
      exact ⟨h3, le_trans h4 h2⟩

/-- C7: for every graph, initial temperature, cooling rate and sequence of
random draws, whenever `simulated_annealing` returns, the cost of the best
tour it returns is at most the cost of the initial tour `list(graph.nodes)`
(the best tour and cost are only ever replaced by strictly cheaper ones). -/
theorem C7_sa_best_le_initial (n : Nat) (c : Nat → Nat → ℚ)
    (temperature coolingRate : ℚ) (rands : List SARand) (fuel : Nat)
    (st : SAState)
    (h : simulated_annealing n c temperature coolingRate rands fuel = some st) :
    evaluate_solution c st.best ≤ evaluate_solution c (List.range n) := by
  have hinit : (saInit n c temperature).bestCost =
      evaluate_solution c (saInit n c temperature).best := rfl
  obtain ⟨h1, h2⟩ := saLoop_inv c coolingRate fuel rands _ st h hinit
  rw [← h1]
  exact le_trans h2 (le_of_eq rfl)

/-- Witness for C7 at a concrete zero-step run. -/
theorem C7_sa_best_le_initial_witness :
    evaluate_solution cOne ((saInit 2 cOne (1/20)).best) ≤
      evaluate_solution cOne (List.range 2) :=
  C7_sa_best_le_initial 2 cOne (1/20) (1/2) [] 0 (saInit 2 cOne (1/20))
    (by decide)

/-! ### C1 -/

theorem evaluate_nonneg (c : Nat → Nat → ℚ) (hc : ∀ u v, 0 ≤ c u v)
    (sol : List Nat) : 0 ≤ evaluate_solution c sol := by
  unfold evaluate_solution
  apply List.sum_nonneg
  intro x hx
  simp only [List.mem_map] at hx
  obtain ⟨e, -, rfl⟩ := hx
  exact hc e.1 e.2

theorem improve_spec (c : Nat → Nat → ℚ) (sol : List Nat) :
    ((improve_by_node_relocations c sol).improved = false →
      improve_by_node_relocations c sol =
        ⟨sol, evaluate_solution c sol, false⟩) ∧
    ((improve_by_node_relocations c sol).improved = true →
      (improve_by_node_relocations c sol).cost + 1/1000 <
        evaluate_solution c sol ∧
      (improve_by_node_relocations c sol).cost =
        evaluate_solution c (improve_by_node_relocations c sol).best) := by
  unfold improve_by_node_relocations
  have key : ∀ (l : List (Nat × Nat)) (st : ImproveState),
      ((st.improved = false → st = ⟨sol, evaluate_solution c sol, false⟩) ∧
       (st.improved = true → st.cost + 1/1000 < evaluate_solution c sol ∧
         st.cost = evaluate_solution c st.best)) →
      (((l.foldl (relocStep c sol) st).improved = false →
         l.foldl (relocStep c sol) st =
           ⟨sol, evaluate_solution c sol, false⟩) ∧
       ((l.foldl (relocStep c sol) st).improved = true →
         (l.foldl (relocStep c sol) st).cost + 1/1000 <
           evaluate_solution c sol ∧
         (l.foldl (relocStep c sol) st).cost =
           evaluate_solution c (l.foldl (relocStep c sol) st).best)) := by
    intro l
    induction l with
    | nil => intro st h; exact h
    | cons p l ih =>
      intro st h
      rw [List.foldl_cons]
      apply ih
      simp only [relocStep]
      split_ifs with hlt
      · constructor
        · intro hfalse
          simp at hfalse
        · intro _
          have hstcost : st.cost ≤ evaluate_solution c sol := by
            cases hb : st.improved
            · rw [h.1 hb]
            · have := (h.2 hb).1
              linarith
          exact ⟨by linarith, rfl⟩
      · exact h
  exact key (permPairs 1 sol.length) ⟨sol, evaluate_solution c sol, false⟩
    ⟨fun _ => rfl, fun hcontra => by simp at hcontra⟩

theorem lsMeasure_decreases (c : Nat → Nat → ℚ) (hc : ∀ u v, 0 ≤ c u v)
    (sol : List Nat)
    (himp : (improve_by_node_relocations c sol).improved = true) :
    lsMeasure c (improve_by_node_relocations c sol).best < lsMeasure c sol := by
  obtain ⟨hlt, heq⟩ := (improve_spec c sol).2 himp
  rw [heq] at hlt
  have hnn : 0 ≤ evaluate_solution c (improve_by_node_relocations c sol).best :=
    evaluate_nonneg c hc _
  unfold lsMeasure
  have h1 : evaluate_solution c (improve_by_node_relocations c sol).best * 1000
      ≤ evaluate_solution c sol * 1000 - 1 := by linarith
  have h2 : (⌊evaluate_solution c
      (improve_by_node_relocations c sol).best * 1000⌋ : ℤ) <
      ⌊evaluate_solution c sol * 1000⌋ := by
    calc ⌊evaluate_solution c (improve_by_node_relocations c sol).best * 1000⌋
        ≤ ⌊evaluate_solution c sol * 1000 - 1⌋ := Int.floor_le_floor h1
      _ = ⌊evaluate_solution c sol * 1000⌋ - 1 := Int.floor_sub_one _
      _ < ⌊evaluate_solution c sol * 1000⌋ := by omega
  have h0 : (0 : ℤ) ≤ ⌊evaluate_solution c
      (improve_by_node_relocations c sol).best * 1000⌋ :=
    Int.floor_nonneg.2 (by positivity)
  exact (Int.toNat_lt_toNat (lt_of_le_of_lt h0 h2)).2 h2

/-- C1: on every graph with non-negative edge costs and every initial tour,
the local-search loop terminates (some finite fuel suffices), the initial
tour heads the recorded trace, and the recorded tour costs are
non-increasing along the trace. -/
theorem C1_local_search_terminates (c : Nat → Nat → ℚ)
    (hc : ∀ u v, 0 ≤ c u v) (sol : List Nat) :
    ∃ (fuel : Nat) (trace : List (List Nat)),
      lsRun c fuel sol = some trace ∧ trace.head? = some sol ∧
      trace.Chain' (fun a b =>
        evaluate_solution c b ≤ evaluate_solution c a) := by
  have main : ∀ (N : Nat) (s : List Nat), lsMeasure c s < N →
      ∃ (fuel : Nat) (trace : List (List Nat)),
        lsRun c fuel s = some trace ∧ trace.head? = some s ∧
        trace.Chain' (fun a b =>
          evaluate_solution c b ≤ evaluate_solution c a) := by
    intro N
    induction N with
    | zero => intro s h; omega
    | succ N ih =>
      intro s hN
      by_cases himp : (improve_by_node_relocations c s).improved = true
      · obtain ⟨hlt, heq⟩ := (improve_spec c s).2 himp
        have hmeas := lsMeasure_decreases c hc s himp
        obtain ⟨fuel, tr, hrun, hhead, hchain⟩ :=
          ih (improve_by_node_relocations c s).best (by omega)
        refine ⟨fuel + 1, s :: tr, ?_, rfl, ?_⟩
        · simp only [lsRun]
          rw [if_pos himp, hrun]
          rfl
        · apply List.chain'_cons'.2
          refine ⟨?_, hchain⟩
          intro y hy
          rw [hhead] at hy
          cases hy
          rw [heq] at hlt
          linarith
      · refine ⟨1, [s], ?_, rfl, List.chain'_singleton _⟩
        simp only [lsRun]
        rw [if_neg himp]
  exact main (lsMeasure c sol + 1) sol (by omega)

/-- Witness for C1 on the all-ones cost table and a concrete initial tour. -/
theorem C1_local_search_terminates_witness :
    ∃ (fuel : Nat) (trace : List (List Nat)),
      lsRun cOne fuel [0, 1] = some trace ∧ trace.head? = some [0, 1] ∧
      trace.Chain' (fun a b =>
        evaluate_solution cOne b ≤ evaluate_solution cOne a) :=
  C1_local_search_terminates cOne (fun u v => by norm_num [cOne]) [0, 1]

/-! ### C10 -/

theorem length_filter_lt_range (i n : Nat) :
    ((List.range n).filter fun j => i < j).length = n - (i + 1) := by
  induction n with
  | zero => simp
  | succ n ih =>
    rw [List.range_succ, List.filter_append, List.length_append, ih]
    by_cases h : i < n
    · simp only [List.filter_cons, List.filter_nil]
      rw [if_pos (by simpa using h)]
      simp only [List.length_cons, List.length_nil]
      omega
    · simp only [List.filter_cons, List.filter_nil]
      rw [if_neg (by simpa using h)]
      simp only [List.length_nil]
      omega

theorem two_mul_sum_range (n : Nat) : 2 * (List.range n).sum = n * (n - 1) := by
  induction n with
  | zero => rfl
  | succ n ih =>
    rw [List.range_succ, List.sum_append]
    simp only [List.sum_cons, List.sum_nil, Nat.add_zero]
    cases n with
    | zero => rfl
    | succ m =>
      have hexp : 2 * ((List.range (m + 1)).sum + (m + 1)) =
          2 * (List.range (m + 1)).sum + 2 * (m + 1) := by ring
      rw [hexp, ih]
      simp only [Nat.succ_sub_one]
      ring

theorem combPairs_zero_length (n : Nat) :
    (combPairs 0 n).length = n * (n - 1) / 2 := by
  have h2 : 2 * (combPairs 0 n).length = n * (n - 1) := by
    rw [combPairs, Nat.sub_zero, ← List.range_eq_range', List.length_flatMap]
    have hmap : List.map
        (List.length ∘ fun i =>
          ((List.range n).filter fun j => i < j).map fun j => (i, j))
        (List.range n) = List.map (fun i => n - (i + 1)) (List.range n) := by
      apply List.map_congr_left
      intro i _
      simp only [Function.comp_apply, List.length_map]
      exact length_filter_lt_range i n
    rw [hmap]
    have hrev : List.map (fun i => n - (i + 1)) (List.range n) =
        (List.range n).reverse := by
      conv_rhs => rw [List.range_eq_range' n, List.reverse_range']
      apply List.map_congr_left
      intro i _
      omega
    rw [hrev, List.sum_reverse]
    exact two_mul_sum_range n
  omega

theorem combPairs_nodup (lo n : Nat) : (combPairs lo n).Nodup := by
  rw [combPairs]
  apply List.nodup_flatMap.2
  constructor
  · intro i _
    apply List.Nodup.map
    · intro a b hab
      injection hab with h1 h2
    · exact List.Nodup.filter _ (List.nodup_range' _ _)
  · apply List.Pairwise.imp ?_ (List.nodup_range' lo (n - lo))
    intro a b hab
    intro x hxa hxb
    simp only [List.mem_map, List.mem_filter] at hxa hxb
    obtain ⟨j1, -, rfl⟩ := hxa
    obtain ⟨j2, -, h2⟩ := hxb
    exact hab ((congrArg Prod.fst h2).symm)

theorem exists_non_tabu (n tl : Nat) (tabu : List (Nat × Nat))
    (hlen : tabu.length ≤ tl) (htl : tl < n * (n - 1) / 2) :
    ∃ p ∈ combPairs 0 n, p ∉ tabu := by
  by_contra hcon
  push_neg at hcon
  have hcard : (combPairs 0 n).length ≤ tabu.length := by
    have h1 : (combPairs 0 n).toFinset.card = (combPairs 0 n).length :=
      List.toFinset_card_of_nodup (combPairs_nodup 0 n)
    have h2 : (combPairs 0 n).toFinset ⊆ tabu.toFinset := by
      intro p hp
      rw [List.mem_toFinset] at hp ⊢
      exact hcon p hp
    calc (combPairs 0 n).length = (combPairs 0 n).toFinset.card := h1.symm
      _ ≤ tabu.toFinset.card := Finset.card_le_card h2
      _ ≤ tabu.length := List.toFinset_card_le tabu
  rw [combPairs_zero_length] at hcard
  omega

theorem tabuConsider_preserves_isSome (c : Nat → Nat → ℚ) (curr : List Nat)
    (tabu : List (Nat × Nat)) (acc : Option (List Nat × ℚ × (Nat × Nat)))
    (p : Nat × Nat) (h : acc.isSome) :
    (tabuConsider c curr tabu acc p).isSome := by
  unfold tabuConsider
  split_ifs with h1
  · exact h
  · cases acc with
    | none => simp
    | some b =>
      obtain ⟨b1, b2, b3⟩ := b
      dsimp only
      split_ifs <;> simp

theorem foldl_tabuConsider_isSome (c : Nat → Nat → ℚ) (curr : List Nat)
    (tabu : List (Nat × Nat)) :
    ∀ (l : List (Nat × Nat)) (acc : Option (List Nat × ℚ × (Nat × Nat))),
      ((∃ p ∈ l, p ∉ tabu) ∨ acc.isSome) →
      (l.foldl (tabuConsider c curr tabu) acc).isSome := by
  intro l
  induction l with
  | nil =>
    intro acc h
    rcases h with ⟨p, hp, -⟩ | hs
    · simp at hp
    · exact hs
  | cons p l ih =>
    intro acc h
    rw [List.foldl_cons]
    apply ih
    by_cases hp : p ∈ tabu
    · rw [tabuConsider_skip _ _ _ _ _ hp]
      rcases h with ⟨q, hq, hqt⟩ | hs
      · rcases List.mem_cons.1 hq with rfl | hq'
        · exact absurd hp hqt
        · exact Or.inl ⟨q, hq', hqt⟩
      · exact Or.inr hs
    · right
      unfold tabuConsider
      rw [if_neg hp]
      cases acc with
      | none => simp
      | some b =>
        obtain ⟨b1, b2, b3⟩ := b
        dsimp only
        split_ifs <;> simp

theorem foldl_tabuConsider_sol_length (c : Nat → Nat → ℚ) (curr : List Nat)
    (tabu : List (Nat × Nat)) :
    ∀ (l : List (Nat × Nat)) (acc : Option (List Nat × ℚ × (Nat × Nat))),
      (∀ b, acc = some b → b.1.length = curr.length) →
      ∀ b, l.foldl (tabuConsider c curr tabu) acc = some b →
        b.1.length = curr.length := by
  intro l
  induction l with
  | nil => intro acc hacc b hb; exact hacc b hb
  | cons p l ih =>
    intro acc hacc b hb
    rw [List.foldl_cons] at hb
    refine ih _ ?_ b hb
    intro b' hb'
    unfold tabuConsider at hb'
    split_ifs at hb' with h1
    · exact hacc b' hb'
    · cases acc with
      | none =>
        dsimp only at hb'
        cases hb'
        exact swapPos_length curr p.1 p.2
      | some bb =>
        obtain ⟨b1, b2, b3⟩ := bb
        dsimp only at hb'
        split_ifs at hb'
        · cases hb'
          exact swapPos_length curr p.1 p.2
        · cases hb'
          exact hacc (b1, b2, b3) rfl

theorem tabuStep_total (c : Nat → Nat → ℚ) (tl n : Nat) (st : TabuState)
    (hcurr : st.curr.length = n) (htabu : st.tabu.length ≤ tl)
    (htl : tl < n * (n - 1) / 2) :
    ∃ st', tabuStep c tl st = some st' ∧ st'.curr.length = n ∧
      st'.tabu.length ≤ tl ∧ st'.costs.length = st.costs.length + 1 := by
  have hsome : (findBestNeighbor c st.curr st.tabu).isSome := by
    apply foldl_tabuConsider_isSome
    left
    rw [hcurr]
    exact exists_non_tabu n tl st.tabu htabu htl
  obtain ⟨⟨nb, ncost, mv⟩, hfind⟩ := Option.isSome_iff_exists.1 hsome
  have hnb : nb.length = n := by
    rw [← hcurr]
    exact foldl_tabuConsider_sol_length c st.curr st.tabu _ none
      (fun b hb => by cases hb) (nb, ncost, mv) hfind
  refine ⟨⟨nb,
      if ncost + 1/1000 < st.bestGlobalCost then nb else st.bestGlobal,
      if ncost + 1/1000 < st.bestGlobalCost then ncost else st.bestGlobalCost,
      if tl < (st.tabu ++ [mv]).length then (st.tabu ++ [mv]).drop 1
      else st.tabu ++ [mv],
      st.costs ++ [ncost]⟩, ?_, ?_, ?_, ?_⟩
  · unfold tabuStep
    rw [hfind]
  · exact hnb
  · dsimp only
    split_ifs with h1
    · simp only [List.length_drop, List.length_append, List.length_cons,
        List.length_nil] at h1 ⊢
      omega
    · simp only [List.length_append, List.length_cons, List.length_nil] at h1 ⊢
      omega
  · simp

theorem tabuLoop_costs_length (c : Nat → Nat → ℚ) (tl n : Nat)
    (htl : tl < n * (n - 1) / 2) :
    ∀ (m : Nat) (st : TabuState), st.curr.length = n → st.tabu.length ≤ tl →
      (tabuLoop c tl m st).costs.length = st.costs.length + m := by
  intro m
  induction m with
  | zero => intro st _ _; rfl
  | succ k ih =>
    intro st hcurr htabu
    obtain ⟨st', hstep, hc', ht', hcost⟩ :=
      tabuStep_total c tl n st hcurr htabu htl
    have : tabuLoop c tl (k + 1) st = tabuLoop c tl k st' := by
      simp only [tabuLoop]
      rw [hstep]
    rw [this, ih st' hc' ht', hcost]
    omega

/-- C10: on a graph with at least 2 nodes and with a tabu length strictly
smaller than the number `n(n-1)/2` of swap position pairs, the Tabu Search
selection always finds a non-tabu move, the early-termination branch is never
taken, and the run performs exactly `max_iterations` iterations — the
recorded cost trace holds the initial cost plus one entry per iteration. -/
theorem C10_tabu_full_iterations (n : Nat) (c : Nat → Nat → ℚ)
    (maxIterations tabuLength : Nat) (hn : 2 ≤ n)
    (htl : tabuLength < n * (n - 1) / 2) :
    (tabu_search n c maxIterations tabuLength).costs.length =
      maxIterations + 1 := by
  unfold tabu_search
  rw [tabuLoop_costs_length c tabuLength n htl maxIterations (tabuInit n c)
    (by simp [tabuInit]) (by simp [tabuInit])]
  simp [tabuInit]
  omega

/-- Witness for C10 on a concrete 3-node instance. -/
theorem C10_tabu_full_iterations_witness :
    (tabu_search 3 cOne 2 2).costs.length = 2 + 1 :=
  C10_tabu_full_iterations 3 cOne 2 2 (by norm_num) (by norm_num)

/-! ### C6 -/

/-- C6, counterexample: a legal Genetic Algorithm run — initial population of
six permutations, valid random draws — with `population_size = 6`. Since
`6 // 10 = 0`, the elite slice is empty; the three matings pick only the
expensive parents, so the best individual `[0, 1, 2]` (cost 3) is lost and
the best cost of generation 1 is 30 > 3: the best cost strictly increases
between consecutive generations. -/
theorem C6_counterexample :
    pop6.all (fun x => decide (x.Perm (List.range 3))) = true ∧
    ms3.all (matingOk 3 6 (sortByCost cex3 pop6)) = true ∧
    evaluate_solution cex3 ((sortByCost cex3 pop6).getD 0 []) = 3 ∧
    (genetic_algorithm cex3 6 1 pop6 [ms3]).2 = [30] := by
  decide

theorem mem_foldl_matingStep (c : Nat → Nat → ℚ) (topHalf : List (List Nat))
    (x : List Nat) :
    ∀ (ms : List Mating) (np : List (List Nat)), x ∈ np →
      x ∈ ms.foldl (matingStep c topHalf) np := by
  intro ms
  induction ms with
  | nil => intro np h; exact h
  | cons m ms ih =>
    intro np h
    rw [List.foldl_cons]
    apply ih
    simp only [matingStep]
    split_ifs <;> simp [List.mem_append, h]

theorem sortByCost_head_le (c : Nat → Nat → ℚ) (l : List (List Nat))
    (x : List Nat) (hx : x ∈ l) :
    evaluate_solution c ((sortByCost c l).getD 0 []) ≤
      evaluate_solution c x := by
  unfold sortByCost
  letI : IsTotal (List Nat)
      (fun a b => evaluate_solution c a ≤ evaluate_solution c b) :=
    ⟨fun a b => le_total _ _⟩
  letI : IsTrans (List Nat)
      (fun a b => evaluate_solution c a ≤ evaluate_solution c b) :=
    ⟨fun a b d h1 h2 => le_trans h1 h2⟩
  have hperm := List.perm_insertionSort
    (fun a b => evaluate_solution c a ≤ evaluate_solution c b) l
  have hsorted := List.sorted_insertionSort
    (fun a b => evaluate_solution c a ≤ evaluate_solution c b) l
  have hx' : x ∈ List.insertionSort
      (fun a b => evaluate_solution c a ≤ evaluate_solution c b) l :=
    (hperm.mem_iff).2 hx
  cases hs : List.insertionSort
      (fun a b => evaluate_solution c a ≤ evaluate_solution c b) l with
  | nil => rw [hs] at hx'; simp at hx'
  | cons y ys =>
    rw [hs] at hx' hsorted
    simp only [List.getD_cons_zero]
    rcases List.mem_cons.1 hx' with rfl | hmem
    · exact le_rfl
    · exact (List.sorted_cons.1 hsorted).1 x hmem

theorem getD_take_zero (l : List (List Nat)) (m : Nat) (hm : 1 ≤ m) :
    (l.take m).getD 0 [] = l.getD 0 [] := by
  cases l with
  | nil => simp
  | cons y ys =>
    obtain ⟨k, rfl⟩ : ∃ k, m = k + 1 := ⟨m - 1, by omega⟩
    rfl

/-- C6, amended: the elitism argument is sound only when the elite slice is
non-empty, i.e. `population_size ≥ 10`: then the cheapest individual of
generation `g` survives into generation `g+1`, so the best cost is
non-increasing. For `population_size < 10` the slice
`population[:population_size//10]` is empty and the best cost can increase
(see the counterexample). -/
theorem C6_amended (c : Nat → Nat → ℚ) (popSize : Nat) (pop : List (List Nat))
    (ms : List Mating) (h10 : 10 ≤ popSize) (hne : pop ≠ []) :
    evaluate_solution c ((gaStep c popSize pop ms).getD 0 []) ≤
      evaluate_solution c (pop.getD 0 []) := by
  obtain ⟨p0, pop', rfl⟩ : ∃ p0 pop', pop = p0 :: pop' := by
    cases pop with
    | nil => exact absurd rfl hne
    | cons a t => exact ⟨a, t, rfl⟩
  have hdiv : 1 ≤ popSize / 10 := by omega
  have hp0elite : p0 ∈ (p0 :: pop').take (popSize / 10) := by
    obtain ⟨k, hk⟩ : ∃ k, popSize / 10 = k + 1 := ⟨popSize / 10 - 1, by omega⟩
    rw [hk]
    exact List.mem_cons_self _ _
  have hp0new : p0 ∈ ms.foldl
      (matingStep c ((p0 :: pop').take (popSize / 2)))
      ((p0 :: pop').take (popSize / 10)) :=
    mem_foldl_matingStep _ _ _ ms _ hp0elite
  have hhead := sortByCost_head_le c
    (ms.foldl (matingStep c ((p0 :: pop').take (popSize / 2)))
      ((p0 :: pop').take (popSize / 10))) p0 hp0new
  calc evaluate_solution c ((gaStep c popSize (p0 :: pop') ms).getD 0 [])
      = evaluate_solution c ((sortByCost c
          (ms.foldl (matingStep c ((p0 :: pop').take (popSize / 2)))
            ((p0 :: pop').take (popSize / 10)))).getD 0 []) := by
        rw [gaStep, getD_take_zero _ _ (by omega)]
    _ ≤ evaluate_solution c p0 := hhead
    _ = evaluate_solution c ((p0 :: pop').getD 0 []) := rfl

/-- Witness for C6's amended theorem at a concrete population. -/
theorem C6_amended_witness :
    evaluate_solution cOne ((gaStep cOne 10 [[0, 1]] []).getD 0 []) ≤
      evaluate_solution cOne ([[0, 1]].getD 0 []) :=
  C6_amended cOne 10 [[0, 1]] [] (by norm_num) (by simp)

/-! ### C9 -/

theorem cons_set_perm : ∀ (t : List Nat) (k : Nat) (a : Nat), k < t.length →
    (t.getD k 0 :: t.set k a).Perm (a :: t) := by
  intro t
  induction t with
  | nil => intro k a h; simp at h
  | cons b t' ih =>
    intro k a h
    cases k with
    | zero =>
      simp only [List.getD_cons_zero, List.set_cons_zero]
      exact List.Perm.swap a b t'
    | succ m =>
      have hm : m < t'.length := by simpa using h
      simp only [List.getD_cons_succ, List.set_cons_succ]
      have p1 : (t'.getD m 0 :: b :: t'.set m a).Perm
          (b :: t'.getD m 0 :: t'.set m a) := List.Perm.swap b _ _
      have p2 : (b :: t'.getD m 0 :: t'.set m a).Perm (b :: a :: t') :=
        (ih m a hm).cons b
      have p3 : (b :: a :: t').Perm (a :: b :: t') := List.Perm.swap a b t'
      exact (p1.trans p2).trans p3

theorem swapPos_perm : ∀ (sol : List Nat) (i j : Nat), i < sol.length →
    j < sol.length → (swapPos sol i j).Perm sol := by
  intro sol
  induction sol with
  | nil => intro i j hi _; simp at hi
  | cons a t ih =>
    intro i j hi hj
    cases i with
    | zero =>
      cases j with
      | zero =>
        simp only [swapPos, List.getD_cons_zero, List.set_cons_zero]
        exact List.Perm.refl _
      | succ m =>
        have hm : m < t.length := by simpa using hj
        simp only [swapPos, List.getD_cons_zero, List.getD_cons_succ,
          List.set_cons_succ, List.set_cons_zero]
        exact cons_set_perm t m a hm
    | succ k =>
      have hk : k < t.length := by simpa using hi
      cases j with
      | zero =>
        simp only [swapPos, List.getD_cons_zero, List.getD_cons_succ,
          List.set_cons_succ, List.set_cons_zero]
        exact cons_set_perm t k a hk
      | succ m =>
        have hm : m < t.length := by simpa using hj
        simp only [swapPos, List.getD_cons_succ, List.set_cons_succ]
        exact (ih k m hk hm).cons a

theorem crossover_perm (n k : Nat) (p1 p2 : List Nat)
    (h1 : p1.Perm (List.range n)) (h2 : p2.Perm (List.range n)) :
    (crossover p1 p2 k).Perm (List.range n) := by
  have hnd1 : p1.Nodup := h1.nodup_iff.2 (List.nodup_range n)
  have hPnd : (p1.take k).Nodup := (List.take_sublist k p1).nodup hnd1
  have hPsub : p1.take k ⊆ List.range n :=
    fun x hx => h1.subset (List.take_subset k p1 hx)
  have hfil : ((List.range n).filter fun g => decide (g ∈ p1.take k)).Perm
      (p1.take k) := by
    apply (List.perm_ext_iff_of_nodup
      (List.Nodup.filter _ (List.nodup_range n)) hPnd).2
    intro a
    simp only [List.mem_filter, List.mem_range, decide_eq_true_eq]
    constructor
    · rintro ⟨-, h⟩; exact h
    · intro h; exact ⟨List.mem_range.1 (hPsub h), h⟩
  have hpart := List.filter_append_perm
    (fun g => decide (g ∈ p1.take k)) (List.range n)
  have key : (p1.take k ++
      ((List.range n).filter fun g => !decide (g ∈ p1.take k))).Perm
      (List.range n) :=
    (hfil.symm.append_right _).trans hpart
  have hoff : (crossover p1 p2 k).Perm (p1.take k ++
      ((List.range n).filter fun g => !decide (g ∈ p1.take k))) := by
    unfold crossover
    apply List.Perm.append_left
    have hfilters : (fun g => decide (g ∉ p1.take k)) =
        (fun g => !decide (g ∈ p1.take k)) := by
      funext g
      exact decide_not
    rw [hfilters]
    exact h2.filter _
  exact hoff.trans key

theorem mem_matingStep (c : Nat → Nat → ℚ) (topHalf np : List (List Nat))
    (m : Mating) (x : List Nat) (hx : x ∈ matingStep c topHalf np m) :
    x ∈ np ∨ x = topHalf.getD m.p1 [] ∨ x = topHalf.getD m.p2 [] ∨
    x = (if m.mutate then
          swapPos (crossover (topHalf.getD m.p1 []) (topHalf.getD m.p2 [])
            m.cross) m.mi m.mj
        else crossover (topHalf.getD m.p1 []) (topHalf.getD m.p2 [])
          m.cross) := by
  simp only [matingStep] at hx
  split_ifs at hx ⊢ <;>
    first
      | (simp only [List.mem_append, List.mem_singleton] at hx; tauto)
      | tauto

theorem matingStep_perms (n : Nat) (c : Nat → Nat → ℚ)
    (topHalf np : List (List Nat)) (m : Mating)
    (htop : ∀ x ∈ topHalf, x.Perm (List.range n))
    (hnp : ∀ x ∈ np, x.Perm (List.range n))
    (hm1 : m.p1 < topHalf.length) (hm2 : m.p2 < topHalf.length)
    (hmi : m.mi < n) (hmj : m.mj < n) :
    ∀ x ∈ matingStep c topHalf np m, x.Perm (List.range n) := by
  have hp1 : (topHalf.getD m.p1 []).Perm (List.range n) := by
    rw [List.getD_eq_getElem _ _ hm1]
    exact htop _ (List.getElem_mem hm1)
  have hp2 : (topHalf.getD m.p2 []).Perm (List.range n) := by
    rw [List.getD_eq_getElem _ _ hm2]
    exact htop _ (List.getElem_mem hm2)
  have hoff0 : (crossover (topHalf.getD m.p1 []) (topHalf.getD m.p2 [])
      m.cross).Perm (List.range n) := crossover_perm n m.cross _ _ hp1 hp2
  have hofflen : (crossover (topHalf.getD m.p1 []) (topHalf.getD m.p2 [])
      m.cross).length = n := by
    rw [hoff0.length_eq, List.length_range]
  have hoff : (if m.mutate then
      swapPos (crossover (topHalf.getD m.p1 []) (topHalf.getD m.p2 [])
        m.cross) m.mi m.mj
      else crossover (topHalf.getD m.p1 []) (topHalf.getD m.p2 [])
        m.cross).Perm (List.range n) := by
    split_ifs
    · exact (swapPos_perm _ m.mi m.mj (by rw [hofflen]; exact hmi)
        (by rw [hofflen]; exact hmj)).trans hoff0
    · exact hoff0
  intro x hx
  rcases mem_matingStep c topHalf np m x hx with h | h | h | h
  · exact hnp x h
  · rw [h]; exact hp1
  · rw [h]; exact hp2
  · rw [h]; exact hoff

theorem gaStep_perms (n : Nat) (c : Nat → Nat → ℚ) (popSize : Nat)
    (pop : List (List Nat)) (ms : List Mating)
    (hpop : ∀ x ∈ pop, x.Perm (List.range n))
    (hok : ms.all (matingOk n popSize pop) = true) :
    ∀ x ∈ gaStep c popSize pop ms, x.Perm (List.range n) := by
  have htop : ∀ x ∈ pop.take (popSize / 2), x.Perm (List.range n) :=
    fun x hx => hpop x (List.take_subset _ _ hx)
  have helite : ∀ x ∈ pop.take (popSize / 10), x.Perm (List.range n) :=
    fun x hx => hpop x (List.take_subset _ _ hx)
  have hfold : ∀ (l : List Mating) (np : List (List Nat)),
      (∀ x ∈ np, x.Perm (List.range n)) →
      l.all (matingOk n popSize pop) = true →
      ∀ x ∈ l.foldl (matingStep c (pop.take (popSize / 2))) np,
        x.Perm (List.range n) := by
    intro l
    induction l with
    | nil => intro np hnp _ x hx; exact hnp x hx
    | cons m l ih =>
      intro np hnp hall x hx
      rw [List.foldl_cons] at hx
      rw [List.all_cons, Bool.and_eq_true] at hall
      have hokm := hall.1
      unfold matingOk at hokm
      simp only [Bool.and_eq_true, decide_eq_true_eq] at hokm
      refine ih _ ?_ hall.2 x hx
      exact matingStep_perms n c _ np m htop hnp
        hokm.1.1.1 hokm.1.1.2 hokm.1.2 hokm.2
  intro x hx
  simp only [gaStep] at hx
  have hx2 : x ∈ sortByCost c
      (ms.foldl (matingStep c (pop.take (popSize / 2)))
        (pop.take (popSize / 10))) := List.take_subset _ _ hx
  have hx3 : x ∈ ms.foldl (matingStep c (pop.take (popSize / 2)))
      (pop.take (popSize / 10)) := by
    unfold sortByCost at hx2
    exact (List.perm_insertionSort _ _).subset hx2
  exact hfold ms _ helite hok x hx3

theorem gaLoop_perms (n : Nat) (c : Nat → Nat → ℚ) (popSize : Nat) :
    ∀ (g : Nat) (oracle : List (List Mating)) (pop : List (List Nat))
      (bc : List ℚ),
      (∀ x ∈ pop, x.Perm (List.range n)) →
      gaOracleOk n c popSize g oracle pop = true →
      ∀ x ∈ (gaLoop c popSize g oracle pop bc).1, x.Perm (List.range n) := by
  intro g
  induction g with
  | zero => intro oracle pop bc hpop _ x hx; exact hpop x hx
  | succ k ih =>
    intro oracle pop bc hpop hok x hx
    simp only [gaLoop] at hx
    simp only [gaOracleOk, Bool.and_eq_true] at hok
    exact ih oracle.tail _ _
      (gaStep_perms n c popSize pop (oracle.headD []) hpop hok.1) hok.2 x hx

/-- C9: in every Genetic Algorithm run whose initial population consists of
permutations of the node set and whose random draws are valid (parent
positions inside the top half, mutation positions inside the tour), every
member of every generation's population — each produced by order crossover
and optional swap mutation — is a permutation of the node set. -/
theorem C9_ga_population_permutations (n : Nat) (c : Nat → Nat → ℚ)
    (popSize generations : Nat) (pop0 : List (List Nat))
    (oracle : List (List Mating))
    (hpop : ∀ x ∈ pop0, x.Perm (List.range n))
    (hok : gaOracleOk n c popSize generations oracle
      (sortByCost c pop0) = true) :
    ∀ x ∈ (genetic_algorithm c popSize generations pop0 oracle).1,
      x.Perm (List.range n) := by
  unfold genetic_algorithm
  apply gaLoop_perms n c popSize generations oracle (sortByCost c pop0) []
  · intro x hx
    apply hpop
    unfold sortByCost at hx
    exact (List.perm_insertionSort _ _).subset hx
  · exact hok

/-- Witness for C9 at a concrete one-generation run with 2 nodes. -/
theorem C9_ga_population_permutations_witness :
    (((genetic_algorithm cOne 4 1 [[0, 1], [1, 0], [0, 1], [1, 0]]
        [[⟨0, 1, 1, true, 0, 1⟩, ⟨0, 1, 0, false, 0, 0⟩]]).1).getD 0
      []).Perm (List.range 2) :=
  C9_ga_population_permutations 2 cOne 4 1 [[0, 1], [1, 0], [0, 1], [1, 0]]
    [[⟨0, 1, 1, true, 0, 1⟩, ⟨0, 1, 0, false, 0, 0⟩]]
    (by decide) (by decide) _ (by decide)
